import Mathlib

/-!
Verification of the numeric core of `src/app.py` (loan-impact-app).

The amortization engine (`amortization_schedule`, lines 10-41 of `app.py`)
is embedded over exact rationals `ℚ`: the Python floats are idealized as
exact real arithmetic, so "equality within floating-point tolerance" in the
specification is settled as exact equality here.  The annuity valuator
(`future_value_annuity`, lines 46-56) takes a real-valued horizon in years
and uses a real exponent, so it is embedded over `ℝ` with `Real.rpow`.
The comparison layer (lines 84-123) is embedded over `ℝ` as well.
-/

set_option maxHeartbeats 1000000

/-- One row of the amortization table, `[month, principal, interest, balance]`
as appended at line 32 of `app.py`. -/
structure Row where
  month : ℕ
  principal : ℚ
  interest : ℚ
  balance : ℚ
  deriving DecidableEq

/-- The extra payment added to the principal in month `m`
(`if extra_annual > 0 and month % 12 == 0`, line 23 of `app.py`). -/
def extraAt (extra_annual : ℚ) (m : ℕ) : ℚ :=
  if 0 < extra_annual ∧ m % 12 = 0 then extra_annual else 0

/-- The month loop of `amortization_schedule` (lines 18-35 of `app.py`),
by structural recursion on the number of remaining scheduled months
(`fuel`), carrying the running balance and the 1-based month index.
Each iteration: `interest = balance * r`, `principal = EMI - interest`
(plus the year-end extra payment), the balance is decreased by the
principal, clamped at zero on early payoff (with the principal adjusted
by the overshoot), and the loop stops as soon as the balance is `≤ 0`. -/
def scheduleAux (EMI r extra_annual : ℚ) : ℚ → ℕ → ℕ → List Row
  | _, _, 0 => []
  | balance, month, fuel + 1 =>
    let interest := balance * r
    let principal := EMI - interest + extraAt extra_annual month
    let balance' := balance - principal
    let principal' := if balance' < 0 then principal + balance' else principal
    let balance'' := if balance' < 0 then 0 else balance'
    if balance'' ≤ 0 then [⟨month, principal', interest, balance''⟩]
    else ⟨month, principal', interest, balance''⟩ ::
      scheduleAux EMI r extra_annual balance'' (month + 1) fuel

/-- Monthly interest rate, `r = r_annual / 12 / 100` (line 11 of `app.py`). -/
def monthlyRate (r_annual : ℚ) : ℚ := r_annual / 12 / 100

/-- Number of scheduled payments, `n = int(years * 12)` (line 12 of `app.py`);
the tenure is a positive integer in the UI, so `years : ℕ`. -/
def nMonths (years : ℕ) : ℕ := years * 12

/-- The fixed monthly installment,
`EMI = P * r * (1 + r)**n / ((1 + r)**n - 1)` (line 13 of `app.py`). -/
def EMI (P r : ℚ) (n : ℕ) : ℚ :=
  P * r * (1 + r) ^ n / ((1 + r) ^ n - 1)

/-- `amortization_schedule(P, r_annual, years, extra_annual)` from
`app.py` lines 10-41: the list of rows, the total interest
(`df["Interest"].sum()`) and the total months (the last row's month,
`int(df["Month"].iloc[-1])`; the schedule is nonempty whenever
`years ≥ 1`, the default `0` is never used then). -/
def amortization_schedule (P r_annual : ℚ) (years : ℕ) (extra_annual : ℚ) :
    List Row × ℚ × ℕ :=
  let r := monthlyRate r_annual
  let n := nMonths years
  let schedule := scheduleAux (EMI P r n) r extra_annual P 1 n
  (schedule, (schedule.map Row.interest).sum,
    ((schedule.getLast?).map Row.month).getD 0)

/-- Total interest paid, second component of `amortization_schedule`. -/
def total_interest (P r_annual : ℚ) (years : ℕ) (extra_annual : ℚ) : ℚ :=
  (amortization_schedule P r_annual years extra_annual).2.1

/-- Total months to payoff, third component of `amortization_schedule`. -/
def total_months (P r_annual : ℚ) (years : ℕ) (extra_annual : ℚ) : ℕ :=
  (amortization_schedule P r_annual years extra_annual).2.2

/-- The failure Python raises out of `amortization_schedule`: the EMI
formula at line 13 of `app.py` divides by `(1+r)**n - 1`, and Python
raises `ZeroDivisionError` when that denominator is zero. -/
inductive AmortError where
  | zeroRateDivision
  deriving DecidableEq

/-- `amortization_schedule` with Python's checked division made explicit:
the only division with a possibly-zero denominator is `(1+r)**n - 1` in
the EMI formula (line 13 of `app.py`); when it is zero Python raises
`ZeroDivisionError` before any schedule row is produced, which is
modelled as an explicit error result. -/
def amortization_schedule_checked (P r_annual : ℚ) (years : ℕ)
    (extra_annual : ℚ) : Except AmortError (List Row × ℚ × ℕ) :=
  let r := monthlyRate r_annual
  let n := nMonths years
  if (1 + r) ^ n - 1 = 0 then .error .zeroRateDivision
  else .ok (amortization_schedule P r_annual years extra_annual)

/-- `future_value_annuity(annual_contrib, annual_return_pct, years)` from
`app.py` lines 46-56: ordinary annuity, zero when the horizon is
non-positive or the contribution is zero, linear (`annual_contrib * n`)
when `|r| < 1e-12`, otherwise `annual_contrib * ((1 + r)**n - 1) / r`.
The horizon is a real number of years (the app passes `months / 12.0`),
so the power is `Real.rpow`. -/
noncomputable def future_value_annuity
    (annual_contrib annual_return_pct years : ℝ) : ℝ :=
  let r := annual_return_pct / 100
  let n := years
  if n ≤ 0 ∨ annual_contrib = 0 then 0
  else if |r| < 1e-12 then annual_contrib * n
  else annual_contrib * ((1 + r) ^ n - 1) / r

/-- `interest_saved = max(0.0, interest_base - interest_extra)`
(line 84 of `app.py`). -/
noncomputable def interest_saved (interest_base interest_extra : ℝ) : ℝ :=
  max 0 (interest_base - interest_extra)

/-- `net_benefit = returns_earned - interest_saved` (line 117 of `app.py`). -/
noncomputable def net_benefit (returns_earned interestSaved : ℝ) : ℝ :=
  returns_earned - interestSaved

/-- The three outcomes reported by the comparison layer
(lines 118-123 of `app.py`). -/
inductive Verdict where
  | investingWins
  | payingExtraWins
  | bothEqual
  deriving DecidableEq

/-- The `if net_benefit > 0 / elif net_benefit < 0 / else` classification
of lines 118-123 of `app.py`. -/
noncomputable def classifyNetBenefit (netBenefit : ℝ) : Verdict :=
  if 0 < netBenefit then .investingWins
  else if netBenefit < 0 then .payingExtraWins
  else .bothEqual

/-! ### Structural lemmas about the month loop -/

/-- The balance after processing one month from balance `b` in month `m`:
the balance decreases by the month's principal and is clamped at zero. -/
def nextBal (E r e b : ℚ) (m : ℕ) : ℚ :=
  max 0 (b - (E - b * r + extraAt e m))

theorem nextBal_nonneg (E r e b : ℚ) (m : ℕ) : 0 ≤ nextBal E r e b m :=
  le_max_left 0 _

/-- Uniform characterization of one iteration of the loop: in both the
clamped and the unclamped case the emitted row is
`⟨m, b - nextBal, b * r, nextBal⟩` and the loop continues from `nextBal`. -/
theorem scheduleAux_succ (E r e b : ℚ) (m f : ℕ) :
    scheduleAux E r e b m (f + 1) =
      if nextBal E r e b m ≤ 0 then
        [⟨m, b - nextBal E r e b m, b * r, nextBal E r e b m⟩]
      else
        ⟨m, b - nextBal E r e b m, b * r, nextBal E r e b m⟩ ::
          scheduleAux E r e (nextBal E r e b m) (m + 1) f := by
  by_cases hlt : b - (E - b * r + extraAt e m) < 0
  · have h0 : nextBal E r e b m = 0 := max_eq_left hlt.le
    have hp : E - b * r + extraAt e m + (b - (E - b * r + extraAt e m)) = b := by
      ring
    simp only [scheduleAux, if_pos hlt, h0, le_refl, if_true, sub_zero, hp]
  · have hge : 0 ≤ b - (E - b * r + extraAt e m) := not_lt.mp hlt
    have h0 : nextBal E r e b m = b - (E - b * r + extraAt e m) :=
      max_eq_right hge
    have hp : b - (b - (E - b * r + extraAt e m)) = E - b * r + extraAt e m := by
      ring
    simp only [scheduleAux, if_neg hlt, h0, hp]

/-- The balance of the last row of a schedule fragment (default `d` for an
empty fragment). -/
def lastBal (l : List Row) (d : ℚ) : ℚ :=
  ((l.getLast?).map Row.balance).getD d

theorem lastBal_nil (d : ℚ) : lastBal [] d = d := rfl

theorem lastBal_cons : ∀ (l : List Row) (a : Row) (d : ℚ),
    lastBal (a :: l) d = lastBal l a.balance := by
  intro l
  induction l with
  | nil => intro a d; rfl
  | cons x xs ih =>
    intro a d
    calc lastBal (a :: x :: xs) d = lastBal (x :: xs) d := by
          unfold lastBal; rw [List.getLast?_cons_cons]
      _ = lastBal xs x.balance := ih x d
      _ = lastBal (x :: xs) a.balance := (ih x a.balance).symm

theorem scheduleAux_length_le (E r e : ℚ) :
    ∀ (f : ℕ) (b : ℚ) (m : ℕ), (scheduleAux E r e b m f).length ≤ f := by
  intro f
  induction f with
  | zero => intro b m; simp [scheduleAux]
  | succ f ih =>
    intro b m
    rw [scheduleAux_succ]
    split
    · simp
    · simpa using ih (nextBal E r e b m) (m + 1)

theorem scheduleAux_length_pos (E r e : ℚ) :
    ∀ (f : ℕ) (b : ℚ) (m : ℕ), 0 < f → 0 < (scheduleAux E r e b m f).length := by
  intro f b m hf
  cases f with
  | zero => omega
  | succ f =>
    rw [scheduleAux_succ]
    split <;> simp

/-- The month of the last emitted row is the starting month plus the number
of emitted rows, minus one. -/
theorem scheduleAux_last_month (E r e : ℚ) :
    ∀ (f : ℕ) (b : ℚ) (m : ℕ), 0 < (scheduleAux E r e b m f).length →
      (((scheduleAux E r e b m f).getLast?).map Row.month).getD 0
        = m + (scheduleAux E r e b m f).length - 1 := by
  intro f
  induction f with
  | zero => intro b m h; simp [scheduleAux] at h
  | succ f ih =>
    intro b m _
    rw [scheduleAux_succ]
    split
    · simp
    · rcases hrest : scheduleAux E r e (nextBal E r e b m) (m + 1) f with _ | ⟨x, xs⟩
      · simp
      · have hlen : 0 < (scheduleAux E r e (nextBal E r e b m) (m + 1) f).length := by
          rw [hrest]; simp
        have h2 := ih (nextBal E r e b m) (m + 1) hlen
        rw [hrest] at h2
        simp only [List.getLast?_cons_cons, List.length_cons]
        simp only [List.length_cons] at h2
        rw [h2]
        omega

theorem extraAt_nonneg {e : ℚ} (he : 0 ≤ e) (m : ℕ) : 0 ≤ extraAt e m := by
  unfold extraAt
  split
  · exact he
  · exact le_refl 0

theorem extraAt_mono {e₁ e₂ : ℚ} (he₁ : 0 ≤ e₁) (h : e₁ ≤ e₂) (m : ℕ) :
    extraAt e₁ m ≤ extraAt e₂ m := by
  unfold extraAt
  by_cases hm : m % 12 = 0
  · by_cases h1 : 0 < e₁
    · have h2 : 0 < e₂ := lt_of_lt_of_le h1 h
      rw [if_pos ⟨h1, hm⟩, if_pos ⟨h2, hm⟩]
      exact h
    · rw [if_neg (fun hc => h1 hc.1)]
      by_cases h2 : 0 < e₂
      · rw [if_pos ⟨h2, hm⟩]; exact h2.le
      · rw [if_neg (fun hc => h2 hc.1)]
  · rw [if_neg (fun hc => hm hc.2), if_neg (fun hc => hm hc.2)]

theorem nextBal_le_self {E r e b : ℚ} (hr : 0 ≤ r) (he : 0 ≤ e)
    (hb : 0 ≤ b) (hbr : b * r ≤ E) (m : ℕ) : nextBal E r e b m ≤ b := by
  have hp : 0 ≤ E - b * r + extraAt e m := by
    have := extraAt_nonneg he m
    linarith
  have h1 : b - (E - b * r + extraAt e m) ≤ b := by linarith
  exact max_le hb h1

/-- Invariant of the loop: starting from a nonnegative balance `b` whose
monthly interest is at most the installment, every emitted row has a
nonnegative balance bounded by `b`, nonnegative interest and nonnegative
principal. -/
theorem scheduleAux_rows_props {E r e : ℚ} (hr : 0 ≤ r) (he : 0 ≤ e) :
    ∀ (f : ℕ) (b : ℚ) (m : ℕ), 0 ≤ b → b * r ≤ E →
      ∀ row ∈ scheduleAux E r e b m f,
        0 ≤ row.balance ∧ row.balance ≤ b ∧ 0 ≤ row.interest ∧
          0 ≤ row.principal := by
  intro f
  induction f with
  | zero => intro b m _ _ row hrow; simp [scheduleAux] at hrow
  | succ f ih =>
    intro b m hb hbr row hrow
    rw [scheduleAux_succ] at hrow
    have hnb := nextBal_nonneg E r e b m
    have hnble := nextBal_le_self hr he hb hbr m
    have hrowprops : (0:ℚ) ≤ nextBal E r e b m ∧ nextBal E r e b m ≤ b ∧
        0 ≤ b * r ∧ 0 ≤ b - nextBal E r e b m :=
      ⟨hnb, hnble, mul_nonneg hb hr, by linarith⟩
    split at hrow
    · rcases List.mem_singleton.mp hrow with rfl
      exact hrowprops
    · rcases List.mem_cons.mp hrow with rfl | hmem
      · exact hrowprops
      · have hbr2 : nextBal E r e b m * r ≤ E :=
          le_trans (mul_le_mul_of_nonneg_right hnble hr) hbr
        rcases ih (nextBal E r e b m) (m + 1) hnb hbr2 row hmem with
          ⟨h1, h2, h3, h4⟩
        exact ⟨h1, le_trans h2 hnble, h3, h4⟩

/-- The balance column is non-increasing (pairwise, hence in every pair
of positions). -/
theorem scheduleAux_balances_pairwise {E r e : ℚ} (hr : 0 ≤ r) (he : 0 ≤ e) :
    ∀ (f : ℕ) (b : ℚ) (m : ℕ), 0 ≤ b → b * r ≤ E →
      List.Pairwise (fun x y : ℚ => y ≤ x)
        ((scheduleAux E r e b m f).map Row.balance) := by
  intro f
  induction f with
  | zero => intro b m _ _; simp [scheduleAux]
  | succ f ih =>
    intro b m hb hbr
    rw [scheduleAux_succ]
    have hnb := nextBal_nonneg E r e b m
    have hnble := nextBal_le_self hr he hb hbr m
    have hbr2 : nextBal E r e b m * r ≤ E :=
      le_trans (mul_le_mul_of_nonneg_right hnble hr) hbr
    split
    · simp
    · simp only [List.map_cons]
      refine List.Pairwise.cons ?_ (ih (nextBal E r e b m) (m + 1) hnb hbr2)
      intro x hx
      rcases List.mem_map.mp hx with ⟨row, hrow, rfl⟩
      exact (scheduleAux_rows_props hr he f (nextBal E r e b m) (m + 1)
        hnb hbr2 row hrow).2.1

/-- The interest column is nonnegative when the rate and starting balance
are. -/
theorem scheduleAux_interest_sum_nonneg {E r e : ℚ} (hr : 0 ≤ r) :
    ∀ (f : ℕ) (b : ℚ) (m : ℕ), 0 ≤ b →
      0 ≤ ((scheduleAux E r e b m f).map Row.interest).sum := by
  intro f
  induction f with
  | zero => intro b m _; simp [scheduleAux]
  | succ f ih =>
    intro b m hb
    rw [scheduleAux_succ]
    have hbr : 0 ≤ b * r := mul_nonneg hb hr
    split
    · simpa using hbr
    · simp only [List.map_cons, List.sum_cons]
      have := ih (nextBal E r e b m) (m + 1) (nextBal_nonneg E r e b m)
      linarith

/-- Each row's interest is the balance before that month's payment times
the monthly rate: position `i` of the schedule, against position `i` of
the balance column shifted by the starting balance. -/
theorem scheduleAux_interest_eq_before (E r e : ℚ) :
    ∀ (f : ℕ) (b : ℚ) (m i : ℕ), i < (scheduleAux E r e b m f).length →
      ((scheduleAux E r e b m f).getD i ⟨0, 0, 0, 0⟩).interest
        = ((b :: (scheduleAux E r e b m f).map Row.balance).getD i 0) * r := by
  intro f
  induction f with
  | zero => intro b m i hi; simp [scheduleAux] at hi
  | succ f ih =>
    intro b m i hi
    by_cases hc : nextBal E r e b m ≤ 0
    · rw [scheduleAux_succ, if_pos hc] at hi ⊢
      have h0 : i = 0 := by simpa using hi
      subst h0
      simp
    · rw [scheduleAux_succ, if_neg hc] at hi ⊢
      cases i with
      | zero => simp
      | succ j =>
        simp only [List.length_cons, Nat.succ_lt_succ_iff] at hi
        simp only [List.getD_cons_succ, List.map_cons]
        exact ih (nextBal E r e b m) (m + 1) j hi

/-- Telescoping: the sum of the principal column equals the starting
balance minus the balance of the last row. -/
theorem scheduleAux_principal_sum (E r e : ℚ) :
    ∀ (f : ℕ) (b : ℚ) (m : ℕ),
      ((scheduleAux E r e b m f).map Row.principal).sum
        = b - lastBal (scheduleAux E r e b m f) b := by
  intro f
  induction f with
  | zero => intro b m; simp [scheduleAux, lastBal]
  | succ f ih =>
    intro b m
    rw [scheduleAux_succ]
    split
    · simp [lastBal]
    · simp only [List.map_cons, List.sum_cons]
      rw [lastBal_cons]
      have := ih (nextBal E r e b m) (m + 1)
      simp only [this]
      ring

/-! ### The closed form of the no-extra balance recurrence -/

/-- Closed form of the linear balance recurrence
`b ↦ b * (1 + r) - E`: after `k` months the balance is
`(P - E/r) * (1+r)^k + E/r`. -/
def linL (P E r : ℚ) (k : ℕ) : ℚ :=
  (P - E / r) * (1 + r) ^ k + E / r

theorem linL_zero (P E r : ℚ) : linL P E r 0 = P := by
  unfold linL
  ring

theorem linL_succ (P E r : ℚ) (hr : r ≠ 0) (k : ℕ) :
    linL P E r (k + 1) = linL P E r k * (1 + r) - E := by
  unfold linL
  rw [pow_succ]
  field_simp
  ring

/-- The EMI formula is exactly the installment that drives the linear
balance recurrence from `P` to `0` in `n` months. -/
theorem linL_EMI_eq_zero (P r : ℚ) (n : ℕ) (hr : r ≠ 0)
    (hA : (1 + r) ^ n - 1 ≠ 0) :
    linL P (EMI P r n) r n = 0 := by
  unfold linL EMI
  field_simp
  ring

theorem one_lt_pow_one_add {r : ℚ} (hr : 0 < r) {n : ℕ} (hn : n ≠ 0) :
    1 < (1 + r) ^ n :=
  one_lt_pow₀ (by linarith) hn

theorem EMI_pos {P r : ℚ} {n : ℕ} (hP : 0 < P) (hr : 0 < r) (hn : n ≠ 0) :
    0 < EMI P r n := by
  have hA : 1 < (1 + r) ^ n := one_lt_pow_one_add hr hn
  unfold EMI
  exact div_pos (mul_pos (mul_pos hP hr) (by linarith)) (by linarith)

theorem mul_rate_lt_EMI {P r : ℚ} {n : ℕ} (hP : 0 < P) (hr : 0 < r)
    (hn : n ≠ 0) : P * r < EMI P r n := by
  have hA : 1 < (1 + r) ^ n := one_lt_pow_one_add hr hn
  have hA1 : 0 < (1 + r) ^ n - 1 := by linarith
  unfold EMI
  rw [lt_div_iff hA1]
  have hPr : 0 < P * r := mul_pos hP hr
  nlinarith

theorem P_lt_EMI_div {P r : ℚ} {n : ℕ} (hP : 0 < P) (hr : 0 < r)
    (hn : n ≠ 0) : P < EMI P r n / r := by
  rw [lt_div_iff hr]
  exact mul_rate_lt_EMI hP hr hn

theorem linL_lt_of_lt {P E r : ℚ} (hr : 0 < r) (hPE : P < E / r) {j k : ℕ}
    (hjk : j < k) : linL P E r k < linL P E r j := by
  unfold linL
  have hpow : (1 + r) ^ j < (1 + r) ^ k := pow_lt_pow_right₀ (by linarith) hjk
  have hneg : P - E / r < 0 := by linarith
  nlinarith [mul_pos (neg_pos.mpr hneg) (sub_pos.mpr hpow)]

theorem linL_pos {P r : ℚ} {n : ℕ} (hP : 0 < P) (hr : 0 < r) (hn : n ≠ 0)
    {k : ℕ} (hk : k < n) : 0 < linL P (EMI P r n) r k := by
  have hA : 1 < (1 + r) ^ n := one_lt_pow_one_add hr hn
  have h0 : linL P (EMI P r n) r n = 0 :=
    linL_EMI_eq_zero P r n hr.ne' (by linarith)
  have hlt := linL_lt_of_lt hr (P_lt_EMI_div hP hr hn) hk
  linarith [hlt, h0.ge]

/-! ### The schedule always pays off within the scheduled months -/

/-- If a function `L` satisfies the unclamped recurrence and reaches `0`
at month `n`, then the clamped loop balance starting below `max 0 (L k)`
after `k` months reaches exactly `0` within the remaining `n - k` months:
the balance of the last emitted row is `0`. -/
theorem scheduleAux_lastBal_zero {E r e : ℚ} (L : ℕ → ℚ) (n : ℕ)
    (hrec : ∀ k, L (k + 1) = L k * (1 + r) - E)
    (hLn : L n = 0) (hE : 0 < E) (hr : 0 ≤ r) (he : 0 ≤ e) :
    ∀ (f k : ℕ) (b : ℚ), k + f = n → 0 ≤ b → b ≤ max 0 (L k) →
      lastBal (scheduleAux E r e b (k + 1) f) b = 0 := by
  intro f
  induction f with
  | zero =>
    intro k b hkf hb hble
    have hk : k = n := by omega
    subst hk
    rw [hLn] at hble
    have hb0 : b = 0 := le_antisymm (by simpa using hble) hb
    simp [lastBal, scheduleAux, hb0]
  | succ f ih =>
    intro k b hkf hb hble
    have hext : 0 ≤ extraAt e (k + 1) := extraAt_nonneg he _
    have h1 : b * (1 + r) ≤ max 0 (L k) * (1 + r) :=
      mul_le_mul_of_nonneg_right hble (by linarith)
    have hstep : b - (E - b * r + extraAt e (k + 1)) ≤ max 0 (L (k + 1)) := by
      by_cases hLk : 0 ≤ L k
      · rw [max_eq_right hLk] at h1
        calc b - (E - b * r + extraAt e (k + 1))
            = b * (1 + r) - E - extraAt e (k + 1) := by ring
          _ ≤ L k * (1 + r) - E := by linarith
          _ = L (k + 1) := (hrec k).symm
          _ ≤ max 0 (L (k + 1)) := le_max_right 0 _
      · rw [max_eq_left (le_of_not_le hLk)] at h1
        have hmax : (0:ℚ) ≤ max 0 (L (k + 1)) := le_max_left 0 _
        calc b - (E - b * r + extraAt e (k + 1))
            = b * (1 + r) - E - extraAt e (k + 1) := by ring
          _ ≤ 0 := by linarith
          _ ≤ max 0 (L (k + 1)) := hmax
    have hnbb : nextBal E r e b (k + 1) ≤ max 0 (L (k + 1)) :=
      max_le (le_max_left 0 _) hstep
    rw [scheduleAux_succ]
    by_cases hc : nextBal E r e b (k + 1) ≤ 0
    · rw [if_pos hc]
      have h0 : nextBal E r e b (k + 1) = 0 :=
        le_antisymm hc (nextBal_nonneg E r e b (k + 1))
      simp [lastBal, h0]
    · rw [if_neg hc, lastBal_cons]
      exact ih (k + 1) (nextBal E r e b (k + 1)) (by omega)
        (nextBal_nonneg E r e b (k + 1)) hnbb

/-- With no extra payment the loop never clamps and never stops early:
starting from the closed-form balance after `k < n` months it runs for
exactly the remaining `n - k` months. -/
theorem scheduleAux_exact_run {E r : ℚ} (L : ℕ → ℚ) (n : ℕ)
    (hrec : ∀ k, L (k + 1) = L k * (1 + r) - E)
    (hpos : ∀ k, k < n → 0 < L k) (hLn : L n = 0) :
    ∀ (f k : ℕ), k + f = n → k < n →
      (scheduleAux E r 0 (L k) (k + 1) f).length = f := by
  intro f
  induction f with
  | zero => intro k hkf hk; omega
  | succ f ih =>
    intro k hkf hk
    have hext : extraAt 0 (k + 1) = 0 := by
      unfold extraAt
      simp
    have hnb : nextBal E r 0 (L k) (k + 1) = L (k + 1) := by
      unfold nextBal
      rw [hext]
      have hlin : L k - (E - L k * r + 0) = L (k + 1) := by
        rw [hrec k]; ring
      rw [hlin]
      have hnn : 0 ≤ L (k + 1) := by
        rcases Nat.lt_or_ge (k + 1) n with h | h
        · exact (hpos (k + 1) h).le
        · have hkn : k + 1 = n := by omega
          rw [hkn, hLn]
      exact max_eq_right hnn
    rw [scheduleAux_succ, hnb]
    rcases Nat.lt_or_ge (k + 1) n with hlt | hge
    · rw [if_neg (not_le.mpr (hpos (k + 1) hlt))]
      simp only [List.length_cons]
      rw [ih (k + 1) (by omega) hlt]
    · have hk1 : k + 1 = n := by omega
      have hf : f = 0 := by omega
      subst hf
      rw [if_pos (le_of_eq (by rw [hk1, hLn]))]
      rfl

/-! ### Comparing two runs with different extra payments -/

/-- A run with a larger extra payment and a smaller starting balance never
takes more months and never accrues more total interest. -/
theorem scheduleAux_compare {E r e₁ e₂ : ℚ} (hr : 0 ≤ r) (he₁ : 0 ≤ e₁)
    (h12 : e₁ ≤ e₂) :
    ∀ (f : ℕ) (b₁ b₂ : ℚ) (m : ℕ), 0 ≤ b₂ → b₂ ≤ b₁ →
      (scheduleAux E r e₂ b₂ m f).length ≤
        (scheduleAux E r e₁ b₁ m f).length ∧
      ((scheduleAux E r e₂ b₂ m f).map Row.interest).sum ≤
        ((scheduleAux E r e₁ b₁ m f).map Row.interest).sum := by
  intro f
  induction f with
  | zero => intro b₁ b₂ m _ _; simp [scheduleAux]
  | succ f ih =>
    intro b₁ b₂ m hb2 hb21
    have hfirst : b₂ * r ≤ b₁ * r := mul_le_mul_of_nonneg_right hb21 hr
    have hnble : nextBal E r e₂ b₂ m ≤ nextBal E r e₁ b₁ m := by
      unfold nextBal
      apply max_le_max (le_refl 0)
      have hext := extraAt_mono he₁ h12 m
      linarith
    rw [scheduleAux_succ E r e₁, scheduleAux_succ E r e₂]
    by_cases hc2 : nextBal E r e₂ b₂ m ≤ 0
    · rw [if_pos hc2]
      constructor
      · split
        · simp
        · simp
      · split
        · simpa using hfirst
        · simp only [List.map_cons, List.sum_cons, List.map_nil,
            List.sum_nil]
          have htail := scheduleAux_interest_sum_nonneg (E := E) (e := e₁) hr
            f (nextBal E r e₁ b₁ m) (m + 1) (nextBal_nonneg E r e₁ b₁ m)
          simp only [add_zero]
          linarith
    · have hc1 : ¬ nextBal E r e₁ b₁ m ≤ 0 :=
        fun h => hc2 (le_trans hnble h)
      rw [if_neg hc2, if_neg hc1]
      rcases ih (nextBal E r e₁ b₁ m) (nextBal E r e₂ b₂ m) (m + 1)
        (nextBal_nonneg E r e₂ b₂ m) hnble with ⟨hlen, hsum⟩
      constructor
      · simpa using Nat.succ_le_succ hlen
      · simp only [List.map_cons, List.sum_cons]
        linarith

/-! ### Bridging lemmas to the packaged outputs -/

theorem amortization_rows_def (P r_annual : ℚ) (years : ℕ) (e : ℚ) :
    (amortization_schedule P r_annual years e).1 =
      scheduleAux (EMI P (monthlyRate r_annual) (nMonths years))
        (monthlyRate r_annual) e P 1 (nMonths years) := rfl

theorem total_interest_def (P r_annual : ℚ) (years : ℕ) (e : ℚ) :
    total_interest P r_annual years e =
      ((scheduleAux (EMI P (monthlyRate r_annual) (nMonths years))
          (monthlyRate r_annual) e P 1 (nMonths years)).map Row.interest).sum :=
  rfl

theorem total_months_def (P r_annual : ℚ) (years : ℕ) (e : ℚ) :
    total_months P r_annual years e =
      (((scheduleAux (EMI P (monthlyRate r_annual) (nMonths years))
          (monthlyRate r_annual) e P 1
          (nMonths years)).getLast?).map Row.month).getD 0 :=
  rfl

theorem monthlyRate_pos {r_annual : ℚ} (hr : 0 < r_annual) :
    0 < monthlyRate r_annual := by
  unfold monthlyRate
  positivity

theorem nMonths_ne_zero {years : ℕ} (hy : 1 ≤ years) : nMonths years ≠ 0 := by
  unfold nMonths
  omega

/-- With at least one scheduled month, the reported `total_months` (the
last row's month) is the number of emitted rows. -/
theorem total_months_eq_length (P r_annual : ℚ) (years : ℕ) (e : ℚ)
    (hy : 1 ≤ years) :
    total_months P r_annual years e =
      (amortization_schedule P r_annual years e).1.length := by
  have hn : 0 < nMonths years := Nat.pos_of_ne_zero (nMonths_ne_zero hy)
  have hlen := scheduleAux_length_pos
    (EMI P (monthlyRate r_annual) (nMonths years)) (monthlyRate r_annual) e
    (nMonths years) P 1 hn
  rw [total_months_def, amortization_rows_def]
  rw [scheduleAux_last_month _ _ _ _ _ _ hlen]
  omega

theorem getLast_balance_of_ne_nil (l : List Row) (d : ℚ) (h : l ≠ []) :
    (l.getLast?).map Row.balance = some (lastBal l d) := by
  unfold lastBal
  cases hx : l.getLast? with
  | none => exact absurd (List.getLast?_eq_none_iff.mp hx) h
  | some y => rfl

/-! ### Claim theorems -/

/-- C1: for every valid loan input (`P > 0`, annual rate `> 0`, positive
integer tenure, `extra_annual ≥ 0`), the principal components of the rows
returned by `amortization_schedule` sum exactly to the original principal
`P` (exact equality over `ℚ`, hence in particular within any
floating-point tolerance). -/
theorem claim_C1_principal_sum (P r_annual : ℚ) (years : ℕ)
    (extra_annual : ℚ) (hP : 0 < P) (hr : 0 < r_annual) (hy : 1 ≤ years)
    (he : 0 ≤ extra_annual) :
    (((amortization_schedule P r_annual years extra_annual).1).map
      Row.principal).sum = P := by
  rw [amortization_rows_def]
  set r := monthlyRate r_annual with hrdef
  set n := nMonths years with hndef
  set E := EMI P r n with hEdef
  have hr0 : 0 < r := monthlyRate_pos hr
  have hn0 : n ≠ 0 := nMonths_ne_zero hy
  have hA : 1 < (1 + r) ^ n := one_lt_pow_one_add hr0 hn0
  have hrec : ∀ k, linL P E r (k + 1) = linL P E r k * (1 + r) - E :=
    fun k => linL_succ P E r hr0.ne' k
  have hLn : linL P E r n = 0 :=
    linL_EMI_eq_zero P r n hr0.ne' (by linarith)
  have hE0 : 0 < E := EMI_pos hP hr0 hn0
  have hlast := scheduleAux_lastBal_zero (e := extra_annual) (linL P E r) n
    hrec hLn hE0 hr0.le he n 0 P (by omega) hP.le
    (by rw [linL_zero]; exact le_max_right 0 P)
  simp only [Nat.zero_add] at hlast
  rw [scheduleAux_principal_sum, hlast]
  ring

/-- C2: for every valid loan input, the balance column of the schedule is
monotonically non-increasing (pairwise), every row's interest equals the
balance before that month's payment (position `i` of `P` followed by the
balance column) times the monthly rate, and the final row's balance is
exactly `0`. -/
theorem claim_C2_invariants (P r_annual : ℚ) (years : ℕ) (extra_annual : ℚ)
    (hP : 0 < P) (hr : 0 < r_annual) (hy : 1 ≤ years)
    (he : 0 ≤ extra_annual) :
    List.Pairwise (fun x y : ℚ => y ≤ x)
      (((amortization_schedule P r_annual years extra_annual).1).map
        Row.balance)
    ∧ (∀ i, i < (amortization_schedule P r_annual years extra_annual).1.length →
        (((amortization_schedule P r_annual years extra_annual).1).getD i
            ⟨0, 0, 0, 0⟩).interest
          = ((P :: ((amortization_schedule P r_annual years
              extra_annual).1).map Row.balance).getD i 0)
              * monthlyRate r_annual)
    ∧ ((((amortization_schedule P r_annual years extra_annual).1).getLast?).map
        Row.balance) = some 0 := by
  rw [amortization_rows_def]
  set r := monthlyRate r_annual with hrdef
  set n := nMonths years with hndef
  set E := EMI P r n with hEdef
  have hr0 : 0 < r := monthlyRate_pos hr
  have hn0 : n ≠ 0 := nMonths_ne_zero hy
  have hbrE : P * r ≤ E := (mul_rate_lt_EMI hP hr0 hn0).le
  refine ⟨?_, ?_, ?_⟩
  · exact scheduleAux_balances_pairwise hr0.le he n P 1 hP.le hbrE
  · intro i hi
    exact scheduleAux_interest_eq_before E r extra_annual n P 1 i hi
  · have hA : 1 < (1 + r) ^ n := one_lt_pow_one_add hr0 hn0
    have hrec : ∀ k, linL P E r (k + 1) = linL P E r k * (1 + r) - E :=
      fun k => linL_succ P E r hr0.ne' k
    have hLn : linL P E r n = 0 :=
      linL_EMI_eq_zero P r n hr0.ne' (by linarith)
    have hE0 : 0 < E := EMI_pos hP hr0 hn0
    have hlast := scheduleAux_lastBal_zero (e := extra_annual) (linL P E r) n
      hrec hLn hE0 hr0.le he n 0 P (by omega) hP.le
      (by rw [linL_zero]; exact le_max_right 0 P)
    simp only [Nat.zero_add] at hlast
    have hlen := scheduleAux_length_pos E r extra_annual n P 1
      (Nat.pos_of_ne_zero hn0)
    have hne : scheduleAux E r extra_annual P 1 n ≠ [] :=
      List.length_pos.mp hlen
    rw [getLast_balance_of_ne_nil _ P hne, hlast]

/-- C9: for every valid loan input with positive rate, every emitted row
has a nonnegative principal component and a nonnegative interest
component. -/
theorem claim_C9_nonneg_components (P r_annual : ℚ) (years : ℕ)
    (extra_annual : ℚ) (hP : 0 < P) (hr : 0 < r_annual) (hy : 1 ≤ years)
    (he : 0 ≤ extra_annual) :
    ∀ row ∈ (amortization_schedule P r_annual years extra_annual).1,
      0 ≤ row.principal ∧ 0 ≤ row.interest := by
  rw [amortization_rows_def]
  intro row hrow
  have hr0 : 0 < monthlyRate r_annual := monthlyRate_pos hr
  have hn0 : nMonths years ≠ 0 := nMonths_ne_zero hy
  have hbrE : P * monthlyRate r_annual ≤
      EMI P (monthlyRate r_annual) (nMonths years) :=
    (mul_rate_lt_EMI hP hr0 hn0).le
  rcases scheduleAux_rows_props hr0.le he (nMonths years) P 1 hP.le hbrE
    row hrow with ⟨_, _, h3, h4⟩
  exact ⟨h4, h3⟩

/-- C5: for every valid loan input the reported `total_months` is at most
`years * 12`, and with no extra payment it is exactly `years * 12`. -/
theorem claim_C5_total_months (P r_annual : ℚ) (years : ℕ) (extra_annual : ℚ)
    (hP : 0 < P) (hr : 0 < r_annual) (hy : 1 ≤ years)
    (he : 0 ≤ extra_annual) :
    total_months P r_annual years extra_annual ≤ years * 12
    ∧ total_months P r_annual years 0 = years * 12 := by
  have hr0 : 0 < monthlyRate r_annual := monthlyRate_pos hr
  have hn0 : nMonths years ≠ 0 := nMonths_ne_zero hy
  set r := monthlyRate r_annual with hrdef
  set n := nMonths years with hndef
  set E := EMI P r n with hEdef
  have hA : 1 < (1 + r) ^ n := one_lt_pow_one_add hr0 hn0
  constructor
  · rw [total_months_eq_length P r_annual years extra_annual hy,
      amortization_rows_def]
    have := scheduleAux_length_le E r extra_annual n P 1
    calc (scheduleAux E r extra_annual P 1 n).length ≤ n := this
      _ = years * 12 := by rw [hndef]; rfl
  · rw [total_months_eq_length P r_annual years 0 hy, amortization_rows_def]
    have hrec : ∀ k, linL P E r (k + 1) = linL P E r k * (1 + r) - E :=
      fun k => linL_succ P E r hr0.ne' k
    have hLn : linL P E r n = 0 :=
      linL_EMI_eq_zero P r n hr0.ne' (by linarith)
    have hpos : ∀ k, k < n → 0 < linL P E r k :=
      fun k hk => linL_pos hP hr0 hn0 hk
    have hrun := scheduleAux_exact_run (linL P E r) n hrec hpos hLn n 0
      (by omega) (Nat.pos_of_ne_zero hn0)
    simp only [linL_zero, Nat.zero_add] at hrun
    rw [hrun]
    rw [hndef]
    rfl

/-- C3: with principal, rate and tenure fixed, a larger extra annual
payment never yields more total months or more total interest. -/
theorem claim_C3_extra_monotone (P r_annual : ℚ) (years : ℕ) (e₁ e₂ : ℚ)
    (hP : 0 < P) (hr : 0 < r_annual) (hy : 1 ≤ years) (he₁ : 0 ≤ e₁)
    (h12 : e₁ ≤ e₂) :
    total_months P r_annual years e₂ ≤ total_months P r_annual years e₁
    ∧ total_interest P r_annual years e₂ ≤
        total_interest P r_annual years e₁ := by
  have hr0 : 0 < monthlyRate r_annual := monthlyRate_pos hr
  rcases scheduleAux_compare (E := EMI P (monthlyRate r_annual)
      (nMonths years)) hr0.le he₁ h12 (nMonths years) P P 1 hP.le le_rfl with
    ⟨hlen, hsum⟩
  constructor
  · rw [total_months_eq_length P r_annual years e₂ hy,
      total_months_eq_length P r_annual years e₁ hy,
      amortization_rows_def, amortization_rows_def]
    exact hlen
  · rw [total_interest_def, total_interest_def]
    exact hsum

/-- C4: at a zero annual interest rate `amortization_schedule` does not
special-case the installment as `P / n`: the EMI formula's denominator
`(1 + r)**n - 1` is `0` and the computation fails fast with the
division-by-zero error raised at the EMI line, before any row is
produced. -/
theorem claim_C4_zero_rate_fails (P : ℚ) (years : ℕ) (extra_annual : ℚ) :
    amortization_schedule_checked P 0 years extra_annual =
      .error .zeroRateDivision := by
  unfold amortization_schedule_checked monthlyRate
  norm_num

/-- The three-way classification agrees with the sign of its argument. -/
theorem classifyNetBenefit_iff (x : ℝ) :
    (classifyNetBenefit x = .investingWins ↔ 0 < x)
    ∧ (classifyNetBenefit x = .payingExtraWins ↔ x < 0)
    ∧ (classifyNetBenefit x = .bothEqual ↔ x = 0) := by
  unfold classifyNetBenefit
  by_cases h1 : 0 < x
  · rw [if_pos h1]
    refine ⟨⟨fun _ => h1, fun _ => rfl⟩, ⟨fun hc => Verdict.noConfusion hc,
      fun hx => absurd hx (asymm h1)⟩, ⟨fun hc => Verdict.noConfusion hc,
      fun hx => absurd h1 (by rw [hx]; exact lt_irrefl 0)⟩⟩
  · rw [if_neg h1]
    by_cases h2 : x < 0
    · rw [if_pos h2]
      refine ⟨⟨fun hc => Verdict.noConfusion hc, fun hx => absurd hx h1⟩,
        ⟨fun _ => h2, fun _ => rfl⟩, ⟨fun hc => Verdict.noConfusion hc,
        fun hx => absurd h2 (by rw [hx]; exact lt_irrefl 0)⟩⟩
    · rw [if_neg h2]
      have hx0 : x = 0 := le_antisymm (not_lt.mp h1) (not_lt.mp h2)
      refine ⟨⟨fun hc => Verdict.noConfusion hc, fun hx => absurd hx h1⟩,
        ⟨fun hc => Verdict.noConfusion hc, fun hx => absurd hx h2⟩,
        ⟨fun _ => hx0, fun _ => rfl⟩⟩

/-- C7: the comparison layer computes
`net_benefit = returns_earned - max(0, interest_base - interest_extra)`
and the reported category matches the sign of `net_benefit` exactly:
positive means investing wins, negative means paying extra wins, and
exact zero means the options are reported equal. -/
theorem claim_C7_net_benefit_classification
    (returns_earned interest_base interest_extra : ℝ) :
    net_benefit returns_earned (interest_saved interest_base interest_extra)
        = returns_earned - max 0 (interest_base - interest_extra)
    ∧ (classifyNetBenefit (net_benefit returns_earned
          (interest_saved interest_base interest_extra)) = .investingWins
        ↔ 0 < net_benefit returns_earned
            (interest_saved interest_base interest_extra))
    ∧ (classifyNetBenefit (net_benefit returns_earned
          (interest_saved interest_base interest_extra)) = .payingExtraWins
        ↔ net_benefit returns_earned
            (interest_saved interest_base interest_extra) < 0)
    ∧ (classifyNetBenefit (net_benefit returns_earned
          (interest_saved interest_base interest_extra)) = .bothEqual
        ↔ net_benefit returns_earned
            (interest_saved interest_base interest_extra) = 0) := by
  rcases classifyNetBenefit_iff (net_benefit returns_earned
    (interest_saved interest_base interest_extra)) with ⟨h1, h2, h3⟩
  exact ⟨rfl, h1, h2, h3⟩

/-- C6: `future_value_annuity` base cases: zero rate gives the linear
value `c * y` for a positive horizon, zero contribution gives `0` for any
rate and horizon, and a zero horizon gives `0`. -/
theorem claim_C6_fv_base_cases (c rate y yz : ℝ) (hy : 0 < y) :
    future_value_annuity c 0 y = c * y
    ∧ future_value_annuity 0 rate yz = 0
    ∧ future_value_annuity c rate 0 = 0 := by
  refine ⟨?_, ?_, ?_⟩
  · simp only [future_value_annuity]
    by_cases hc : c = 0
    · rw [if_pos (Or.inr hc), hc, zero_mul]
    · rw [if_neg (not_or.mpr ⟨not_le.mpr hy, hc⟩), if_pos (by norm_num)]
  · simp [future_value_annuity]
  · simp [future_value_annuity]

/-- C8: for a positive annual return rate, `future_value_annuity` is
strictly increasing in the horizon (for positive contribution) and
strictly increasing in the contribution (for positive horizon). -/
theorem claim_C8_fv_strict_mono (c c₁ c₂ rate y y₁ y₂ : ℝ)
    (hrate : 0 < rate) (hc : 0 < c) (hy1 : 0 < y₁) (h12 : y₁ < y₂)
    (hc1 : 0 < c₁) (hc12 : c₁ < c₂) (hy : 0 < y) :
    future_value_annuity c rate y₁ < future_value_annuity c rate y₂
    ∧ future_value_annuity c₁ rate y < future_value_annuity c₂ rate y := by
  have hy2 : 0 < y₂ := hy1.trans h12
  have hr : 0 < rate / 100 := by positivity
  constructor
  · simp only [future_value_annuity]
    rw [if_neg (not_or.mpr ⟨not_le.mpr hy1, hc.ne'⟩),
      if_neg (not_or.mpr ⟨not_le.mpr hy2, hc.ne'⟩)]
    by_cases heps : |rate / 100| < 1e-12
    · rw [if_pos heps, if_pos heps]
      exact mul_lt_mul_of_pos_left h12 hc
    · rw [if_neg heps, if_neg heps]
      have hbase : 1 < 1 + rate / 100 := by linarith
      have hpow : (1 + rate / 100) ^ y₁ < (1 + rate / 100) ^ y₂ :=
        (Real.rpow_lt_rpow_left_iff hbase).mpr h12
      have hnum : c * ((1 + rate / 100) ^ y₁ - 1) <
          c * ((1 + rate / 100) ^ y₂ - 1) :=
        mul_lt_mul_of_pos_left (by linarith) hc
      exact div_lt_div_of_pos_right hnum hr
  · simp only [future_value_annuity]
    rw [if_neg (not_or.mpr ⟨not_le.mpr hy, hc1.ne'⟩),
      if_neg (not_or.mpr ⟨not_le.mpr hy, (hc1.trans hc12).ne'⟩)]
    by_cases heps : |rate / 100| < 1e-12
    · rw [if_pos heps, if_pos heps]
      exact mul_lt_mul_of_pos_right hc12 hy
    · rw [if_neg heps, if_neg heps]
      have hbase : 1 < 1 + rate / 100 := by linarith
      have hA : 1 < (1 + rate / 100) ^ y := Real.one_lt_rpow hbase hy
      have hnum : c₁ * ((1 + rate / 100) ^ y - 1) <
          c₂ * ((1 + rate / 100) ^ y - 1) :=
        mul_lt_mul_of_pos_right hc12 (by linarith)
      exact div_lt_div_of_pos_right hnum hr

/-- C10: `future_value_annuity` is nonnegative for every nonnegative
contribution and horizon and every annual return rate above `-100` per
cent, including strictly negative rates. -/
theorem claim_C10_fv_nonneg (c rate y : ℝ) (hc : 0 ≤ c) (hy : 0 ≤ y)
    (hrate : -100 < rate) : 0 ≤ future_value_annuity c rate y := by
  simp only [future_value_annuity]
  by_cases h1 : y ≤ 0 ∨ c = 0
  · rw [if_pos h1]
  · rw [if_neg h1]
    push_neg at h1
    obtain ⟨hy0, hc0⟩ := h1
    by_cases heps : |rate / 100| < 1e-12
    · rw [if_pos heps]
      exact mul_nonneg hc hy
    · rw [if_neg heps]
      have hbase : 0 < 1 + rate / 100 := by linarith
      have hrne : rate / 100 ≠ 0 := by
        intro h0
        apply heps
        rw [h0]
        norm_num
      rcases hrne.lt_or_lt with hneg | hpos
      · have hlt1 : 1 + rate / 100 < 1 := by linarith
        have hA : (1 + rate / 100) ^ y < 1 :=
          Real.rpow_lt_one hbase.le hlt1 hy0
        rw [div_nonneg_iff]
        right
        refine ⟨?_, hneg.le⟩
        nlinarith [mul_nonneg hc
          (by linarith : (0:ℝ) ≤ 1 - (1 + rate / 100) ^ y)]
      · have hgt1 : 1 < 1 + rate / 100 := by linarith
        have hA : 1 < (1 + rate / 100) ^ y := Real.one_lt_rpow hgt1 hy0
        rw [div_nonneg_iff]
        left
        exact ⟨mul_nonneg hc (by linarith), hpos.le⟩

/-! ### Concrete witnesses -/

theorem claim_C1_principal_sum_witness :
    (0:ℚ) < 1000 ∧ (0:ℚ) < 12 ∧ (1:ℕ) ≤ 1 ∧ (0:ℚ) ≤ 50 ∧
    (((amortization_schedule 1000 12 1 50).1).map Row.principal).sum
      = 1000 :=
  ⟨by norm_num, by norm_num, le_rfl, by norm_num,
    claim_C1_principal_sum 1000 12 1 50 (by norm_num) (by norm_num) le_rfl
      (by norm_num)⟩

theorem claim_C2_invariants_witness :
    (0:ℚ) < 1000 ∧ (0:ℚ) < 12 ∧ (1:ℕ) ≤ 1 ∧ (0:ℚ) ≤ 50 ∧
    (List.Pairwise (fun x y : ℚ => y ≤ x)
      (((amortization_schedule 1000 12 1 50).1).map Row.balance)
    ∧ (∀ i, i < (amortization_schedule 1000 12 1 50).1.length →
        (((amortization_schedule 1000 12 1 50).1).getD i
            ⟨0, 0, 0, 0⟩).interest
          = ((1000 :: ((amortization_schedule 1000 12 1 50).1).map
              Row.balance).getD i 0) * monthlyRate 12)
    ∧ ((((amortization_schedule 1000 12 1 50).1).getLast?).map Row.balance)
        = some 0) :=
  ⟨by norm_num, by norm_num, le_rfl, by norm_num,
    claim_C2_invariants 1000 12 1 50 (by norm_num) (by norm_num) le_rfl
      (by norm_num)⟩

theorem claim_C3_extra_monotone_witness :
    (0:ℚ) < 1000 ∧ (0:ℚ) < 12 ∧ (1:ℕ) ≤ 2 ∧ (0:ℚ) ≤ 100 ∧ (100:ℚ) ≤ 400 ∧
    (total_months 1000 12 2 400 ≤ total_months 1000 12 2 100
    ∧ total_interest 1000 12 2 400 ≤ total_interest 1000 12 2 100) :=
  ⟨by norm_num, by norm_num, by norm_num, by norm_num, by norm_num,
    claim_C3_extra_monotone 1000 12 2 100 400 (by norm_num) (by norm_num)
      (by norm_num) (by norm_num) (by norm_num)⟩

theorem claim_C5_total_months_witness :
    (0:ℚ) < 1000 ∧ (0:ℚ) < 12 ∧ (1:ℕ) ≤ 2 ∧ (0:ℚ) ≤ 400 ∧
    (total_months 1000 12 2 400 ≤ 2 * 12 ∧ total_months 1000 12 2 0 = 2 * 12) :=
  ⟨by norm_num, by norm_num, by norm_num, by norm_num,
    claim_C5_total_months 1000 12 2 400 (by norm_num) (by norm_num)
      (by norm_num) (by norm_num)⟩

theorem claim_C9_nonneg_components_witness :
    (0:ℚ) < 1000 ∧ (0:ℚ) < 12 ∧ (1:ℕ) ≤ 1 ∧ (0:ℚ) ≤ 50 ∧
    (∀ row ∈ (amortization_schedule 1000 12 1 50).1,
      0 ≤ row.principal ∧ 0 ≤ row.interest) :=
  ⟨by norm_num, by norm_num, le_rfl, by norm_num,
    claim_C9_nonneg_components 1000 12 1 50 (by norm_num) (by norm_num)
      le_rfl (by norm_num)⟩

theorem claim_C6_fv_base_cases_witness :
    (0:ℝ) < 3 ∧
    (future_value_annuity 2 0 3 = 2 * 3
    ∧ future_value_annuity 0 5 (-1) = 0
    ∧ future_value_annuity 2 5 0 = 0) :=
  ⟨by norm_num, claim_C6_fv_base_cases 2 5 3 (-1) (by norm_num)⟩

theorem claim_C8_fv_strict_mono_witness :
    (0:ℝ) < 7 ∧ (0:ℝ) < 3 ∧ (0:ℝ) < 1 ∧ (1:ℝ) < 2 ∧ (0:ℝ) < 1 ∧
    (1:ℝ) < 2 ∧ (0:ℝ) < 4 ∧
    (future_value_annuity 3 7 1 < future_value_annuity 3 7 2
    ∧ future_value_annuity 1 7 4 < future_value_annuity 2 7 4) :=
  ⟨by norm_num, by norm_num, by norm_num, by norm_num, by norm_num,
    by norm_num, by norm_num,
    claim_C8_fv_strict_mono 3 1 2 7 4 1 2 (by norm_num) (by norm_num)
      (by norm_num) (by norm_num) (by norm_num) (by norm_num) (by norm_num)⟩

theorem claim_C10_fv_nonneg_witness :
    (0:ℝ) ≤ 1 ∧ (0:ℝ) ≤ 2 ∧ (-100:ℝ) < -50 ∧
    0 ≤ future_value_annuity 1 (-50) 2 :=
  ⟨by norm_num, by norm_num, by norm_num,
    claim_C10_fv_nonneg 1 (-50) 2 (by norm_num) (by norm_num) (by norm_num)⟩
